import Mathlib

/-!
Verification of the delay-http-rs session engine against its specification.

Shallow embedding conventions:
- A Rust `std::time::Duration` is a whole number of nanoseconds, embedded as `Nat`.
  Rust `Duration` division by a `u32` is exact truncating division on total
  nanoseconds, which is `Nat` division.
- A Rust `std::time::Instant` is embedded as `Nat` (nanoseconds from an arbitrary
  epoch). Rust `Instant - Instant` goes through `duration_since`, which returns
  the zero duration when the right operand is later, exactly `Nat` truncated
  subtraction.
- `bitvec::vec::BitVec` is embedded as `List Bool`.
- A Rust operation that can panic is embedded as an `Option`/`Except` returning
  `none`/`error` on the panicking input.
- A tokio mpsc channel is embedded as `SignalChannel`: the list of buffered
  signals in FIFO order plus liveness flags for each half. The capacity bound 8
  only causes a send to suspend, never to fail or drop, so it does not appear in
  the functional model.
-/

/-- Embedding of `Signal` from src/session.rs: two instants, in nanoseconds. -/
structure Signal where
  instant : Nat
  timeout_instant : Nat
  deriving DecidableEq, Repr

/-- State of one tokio mpsc signal channel: the FIFO buffer of signals together
with whether the sender half and the receiver half are still alive.
`poll_recv` yields the head of `buf`; on an empty buffer it yields `none`
(channel closed) when the sender half is gone and suspends otherwise.
`try_recv` succeeds exactly when `buf` is nonempty. `send` fails exactly when
the receiver half is gone. -/
structure SignalChannel where
  buf : List Signal
  senderAlive : Bool
  receiverAlive : Bool
  deriving DecidableEq, Repr

/-- Embedding of `ThresholdDelayDecoder` from src/decoder.rs. -/
structure ThresholdDelayDecoder where
  threshold : Nat
  bits : List Bool
  deriving DecidableEq, Repr

/-- Embedding of `ThresholdDelayDecoder::push_duration`: append `duration >= threshold`. -/
def ThresholdDelayDecoder.push_duration (d : ThresholdDelayDecoder) (duration : Nat) :
    ThresholdDelayDecoder :=
  { d with bits := d.bits ++ [decide (d.threshold ≤ duration)] }

/-- Embedding of `ThresholdDelayDecoder::close`: return the accumulated bits. -/
def ThresholdDelayDecoder.close (d : ThresholdDelayDecoder) : List Bool :=
  d.bits

/-- Repeated `push_duration` calls, in order, used to state whole-sequence properties. -/
def ThresholdDelayDecoder.pushAll : ThresholdDelayDecoder → List Nat → ThresholdDelayDecoder
  | d, [] => d
  | d, x :: xs => ThresholdDelayDecoder.pushAll (d.push_duration x) xs

/-- Largest value of Rust `Duration` in nanoseconds: `u64::MAX` seconds plus
999999999 nanoseconds. Summing durations past this bound panics in Rust. -/
def durationMaxNanos : Nat := (2 ^ 64 - 1) * 1000000000 + 999999999

/-- Embedding of `AverageDelayDecoder` from src/decoder.rs: the buffered durations. -/
structure AverageDelayDecoder where
  durations : List Nat
  deriving DecidableEq, Repr

/-- Embedding of `AverageDelayDecoder::new`. -/
def AverageDelayDecoder.new : AverageDelayDecoder := ⟨[]⟩

/-- Embedding of `AverageDelayDecoder::push_duration`: buffer the duration. -/
def AverageDelayDecoder.push_duration (d : AverageDelayDecoder) (duration : Nat) :
    AverageDelayDecoder :=
  ⟨d.durations ++ [duration]⟩

/-- Embedding of `AverageDelayDecoder::close`. Mirrors the source exactly:
fewer than 2 durations give the empty sequence; otherwise the durations are
summed as Rust `Duration` (`none` embeds the addition-overflow panic), the
length is cast to `u32` (`% 2 ^ 32`), the sum is divided by that cast length
(`none` embeds the division-by-zero panic when the cast wraps to 0), and each
duration is compared against the truncated mean in original order. -/
def AverageDelayDecoder.close (d : AverageDelayDecoder) : Option (List Bool) :=
  if d.durations.length < 2 then some []
  else if durationMaxNanos < d.durations.sum then none
  else if d.durations.length % 2 ^ 32 = 0 then none
  else some (d.durations.map
    (fun duration => decide (d.durations.sum / (d.durations.length % 2 ^ 32) ≤ duration)))

/-- Repeated `push_duration` calls, in order. -/
def AverageDelayDecoder.pushAll : AverageDelayDecoder → List Nat → AverageDelayDecoder
  | d, [] => d
  | d, x :: xs => AverageDelayDecoder.pushAll (d.push_duration x) xs

/-- The `DelayDecoder` capability consumed by the session, kept abstract as in
the source trait: a state type `D` with `push_duration` and `close`. -/
structure DecoderOps (D : Type) where
  push_duration : D → Nat → D
  close : D → List Bool

/-- Decoder instance over `List Nat` that records every pushed duration, used as
the concrete decoder in counterexamples and witnesses; its `close` discards the
log, so a nonempty bit output can only come from the log mapping. -/
def traceOps : DecoderOps (List Nat) :=
  { push_duration := fun d x => d ++ [x], close := fun d => d.map (fun _ => false) }

/-- Embedding of `DelaySessionInner` from src/session.rs. The `Open` variant
holds the decoder, the receiver half of the inbound channel, the last accepted
instant, and the armed deadline of `timeout_sleep`. -/
inductive DelaySessionInner (D : Type) where
  | Open (decoder : D) (receiver : SignalChannel) (last_signal_instant : Nat)
      (timeout_deadline : Nat)
  | Closed
  deriving DecidableEq, Repr

/-- Embedding of `DelaySession::is_open`. -/
def DelaySessionInner.is_open {D : Type} : DelaySessionInner D → Bool
  | .Open _ _ _ _ => true
  | .Closed => false

/-- Embedding of `DelaySession::start_with_receiver`: a synchronous `try_recv`
on the receiver. A buffered signal seeds the new generation (its `instant`
becomes the start point and its `timeout_instant` the initial deadline; it is
consumed from the buffer and never pushed into the decoder); an empty buffer
gives `Closed` whether or not the sender half is alive, and on that path the
receiver is dropped. -/
def DelaySession.start_with_receiver {D : Type} (decoder : D) (chan : SignalChannel) :
    DelaySessionInner D :=
  match chan.buf with
  | signal :: rest =>
      .Open decoder { chan with buf := rest } signal.instant signal.timeout_instant
  | [] => .Closed

/-- Outcome of one `poll` of a session: `ready` returns the closed bits and the
receiver (the session itself becomes `Closed`); `pending` carries the updated
open session. -/
inductive SessionPoll (D : Type) where
  | ready (bits : List Bool) (receiver : SignalChannel)
  | pending (next : DelaySessionInner D)
  deriving DecidableEq, Repr

/-- Outcome of the inner drain loop of `DelaySessionInner::poll` (the `while`
over further already-ready signals): either the session closed during the
drain, or it stays open with the updated decoder, remaining buffer, last
accepted instant, and tentative deadline. -/
inductive DrainOut (D : Type) where
  | closedNow (bits : List Bool) (restBuf : List Signal)
  | keepOpen (decoder : D) (restBuf : List Signal) (last_signal_instant : Nat)
      (new_timeout_instant : Nat)
  deriving DecidableEq, Repr

/-- Embedding of the inner `while let Poll::Ready(..) = receiver.poll_recv(cx)`
loop of `DelaySessionInner::poll` (src/session.rs lines 147 to 159). Each ready
signal at or past the tentative deadline closes the session (the signal, already
dequeued by `poll_recv`, is dropped); a ready `none` (sender gone) closes it;
otherwise the inter-arrival duration is pushed, the last instant and tentative
deadline advance, and draining continues. An empty buffer with a live sender is
`poll_recv` returning `Pending`, which exits the loop keeping the session open. -/
def drain {D : Type} (ops : DecoderOps D) (senderAlive : Bool) :
    List Signal → D → Nat → Nat → DrainOut D
  | [], d, last, nd =>
      if senderAlive then .keepOpen d [] last nd else .closedNow (ops.close d) []
  | s :: rest, d, last, nd =>
      if nd ≤ s.instant then .closedNow (ops.close d) rest
      else drain ops senderAlive rest (ops.push_duration d (s.instant - last))
        s.instant s.timeout_instant

/-- Embedding of `<DelaySessionInner as Future>::poll` (src/session.rs lines 117
to 177). `now` is the current instant; `timeout_sleep` is ready exactly when its
deadline is at or before `now`. Polling `Closed` is the source panic at line
174, embedded as `Except.error ()`. On `Open`: one `poll_recv`; a first ready
signal at or past the armed deadline closes at once without touching the
decoder (the dequeued signal is dropped); an accepted first signal is pushed and
the inner drain runs; after the drain the timer is re-armed with the final
tentative deadline and polled; with no ready signal the timer is polled with the
original deadline. -/
def DelaySessionInner.poll {D : Type} (ops : DecoderOps D) (now : Nat) :
    DelaySessionInner D → Except Unit (SessionPoll D)
  | .Closed => Except.error ()
  | .Open d chan last deadline =>
    Except.ok <|
      match chan.buf with
      | [] =>
        if chan.senderAlive then
          if deadline ≤ now then .ready (ops.close d) chan
          else .pending (.Open d chan last deadline)
        else .ready (ops.close d) chan
      | s :: rest =>
        if deadline ≤ s.instant then .ready (ops.close d) { chan with buf := rest }
        else
          match drain ops chan.senderAlive rest (ops.push_duration d (s.instant - last))
              s.instant s.timeout_instant with
          | .closedNow bits rbuf => .ready bits { chan with buf := rbuf }
          | .keepOpen d2 rbuf last2 nd =>
            if nd ≤ now then .ready (ops.close d2) { chan with buf := rbuf }
            else .pending (.Open d2 { chan with buf := rbuf } last2 nd)

/-- Left fold of signal acceptance: for each signal in order, push the
difference to the last instant and advance the last instant. Returns the final
decoder state and last instant. -/
def applyAccepted {D : Type} (ops : DecoderOps D) : D → Nat → List Signal → D × Nat
  | d, last, [] => (d, last)
  | d, last, s :: rest => applyAccepted ops (ops.push_duration d (s.instant - last)) s.instant rest

/-- Every signal of the list is strictly before the deadline current at its
position: the armed deadline for the first, thereafter the previous signal's
`timeout_instant`. -/
def allInWindow (deadline : Nat) : List Signal → Bool
  | [] => true
  | s :: rest => decide (s.instant < deadline) && allInWindow s.timeout_instant rest

/-- Deadline left after accepting every signal of the list: the armed deadline
when the list is empty, else the last signal's `timeout_instant`. -/
def finalDeadline (deadline : Nat) : List Signal → Nat
  | [] => deadline
  | s :: rest => finalDeadline s.timeout_instant rest

/-- The instants of the list are non-decreasing, starting from `last`. -/
def instantsChain (last : Nat) : List Signal → Bool
  | [] => true
  | s :: rest => decide (last ≤ s.instant) && instantsChain s.instant rest

/-- Lookup of a key in the sender map, embedded as an association list. -/
def lookupSender {K : Type} [DecidableEq K] : List (K × SignalChannel) → K → Option SignalChannel
  | [], _ => none
  | (k2, c) :: rest, k => if k = k2 then some c else lookupSender rest k

/-- Replace the channel stored under a key in the sender map. -/
def updateSender {K : Type} [DecidableEq K] (m : List (K × SignalChannel)) (k : K)
    (c : SignalChannel) : List (K × SignalChannel) :=
  m.map (fun p => if p.1 = k then (k, c) else p)

/-- Removal of a key from the sender map, as done by the driver task and the
cleanup guards. -/
def removeKey {K : Type} [DecidableEq K] (m : List (K × SignalChannel)) (k : K) :
    List (K × SignalChannel) :=
  m.filter (fun p => decide (p.1 ≠ k))

/-- Embedding of `result_sender.send((key, bits)).await` with its error ignored
(`let _ = ..` in both driver branches): the pair is appended to the result
stream buffer when the receiving half is alive and silently discarded otherwise. -/
def publish {K : Type} (resultAlive : Bool) (buf : List (K × List Bool))
    (item : K × List Bool) : List (K × List Bool) :=
  if resultAlive then buf ++ [item] else buf

/-- Embedding of one iteration of the spawned driver loop in
`DelaySessionStore::push_signal` (src/session_store.rs lines 110 to 157), taken
from the point where the current session completed with `bits` and handed back
its `receiver`. The next generation is started with a fresh decoder; if it is
not open the key is removed from the map (when the weak reference still
upgrades, `mapAlive`), the result is published and the task terminates
(`none`); if it is open the map is untouched, the result is published and the
loop continues with the new session (`some`). -/
def driverLoopStep {K D : Type} [DecidableEq K] (k : K) (bits : List Bool)
    (receiver : SignalChannel) (fresh : D) (map : List (K × SignalChannel))
    (resultBuf : List (K × List Bool)) (resultAlive mapAlive : Bool) :
    List (K × SignalChannel) × List (K × List Bool) × Option (DelaySessionInner D) :=
  let next := DelaySession.start_with_receiver fresh receiver
  if next.is_open then
    (map, publish resultAlive resultBuf (k, bits), some next)
  else
    ((if mapAlive then removeKey map k else map), publish resultAlive resultBuf (k, bits), none)

/-- Embedding of `DelaySessionStore::push_signal` (src/session_store.rs lines 36
to 163) as a transition on the sender map. Occupied entry: the signal
`{instant, timeout_instant := instant + timeout_duration}` is sent into the
stored channel, failing exactly when its receiver half is gone. Vacant entry: a
fresh channel and a fresh `Open` session with `last_signal_instant := instant`
and deadline `instant + timeout_duration` are created, the sender is recorded
under the key, and the call succeeds (the spawn of the driver task is outside
the functional model; the returned session is the one the spawned task drives). -/
def DelaySessionStore.push_signal {K D : Type} [DecidableEq K] (timeout_duration : Nat)
    (map : List (K × SignalChannel)) (k : K) (instant : Nat) (fresh : D) :
    Except Unit (List (K × SignalChannel) × Option (DelaySessionInner D)) :=
  match lookupSender map k with
  | some c =>
      if c.receiverAlive then
        Except.ok (updateSender map k
          { c with buf := c.buf ++ [⟨instant, instant + timeout_duration⟩] }, none)
      else Except.error ()
  | none =>
      Except.ok (map ++ [(k, ⟨[], true, true⟩)],
        some (.Open fresh ⟨[], true, true⟩ instant (instant + timeout_duration)))

/-- Events of the occupied path of `DelaySessionStore::push_signal`, for the
locking-discipline claim. -/
inductive StoreEvent where
  | lockAcquire
  | entryLookup
  | sendAwait
  | lockRelease
  deriving DecidableEq, Repr

/-- Position of the first occurrence of an event in a trace. -/
def eventIndex : List StoreEvent → StoreEvent → Nat
  | [], _ => 0
  | e2 :: rest, e => if e = e2 then 0 else eventIndex rest e + 1

/-- Modelled event order of the occupied path of `DelaySessionStore::push_signal`
(src/session_store.rs lines 45 to 55). The `MutexGuard` produced by
`self.sender_map.lock().await` is a temporary in the scrutinee of the `match`;
the `Entry` value and the `&Sender` obtained from `entry.get()` borrow that
guard, and Rust drops scrutinee temporaries only when the whole `match`
expression ends, so the guard is released only after `sender.send(..).await`
completes. The borrow of the guard by `entry` makes any earlier release
impossible under the borrow checker. -/
def pushSignalOccupiedEvents : List StoreEvent :=
  [.lockAcquire, .entryLookup, .sendAwait, .lockRelease]

/-- The trace performs the awaited send outside the mutual-exclusion lock. -/
def sendOutsideLock (t : List StoreEvent) : Bool :=
  decide (eventIndex t .sendAwait < eventIndex t .lockAcquire ∨
    eventIndex t .lockRelease < eventIndex t .sendAwait)

/-- The trace performs the awaited send while holding the mutual-exclusion lock. -/
def sendInsideLock (t : List StoreEvent) : Bool :=
  decide (eventIndex t .lockAcquire < eventIndex t .sendAwait ∧
    eventIndex t .sendAwait < eventIndex t .lockRelease)

/-- Helper: `pushAll` appends one comparison bit per pushed duration, in order. -/
theorem threshold_pushAll_bits (T : Nat) (bits : List Bool) (l : List Nat) :
    (ThresholdDelayDecoder.pushAll ⟨T, bits⟩ l).bits
      = bits ++ l.map (fun d => decide (T ≤ d)) := by
  induction l generalizing bits with
  | nil => simp [ThresholdDelayDecoder.pushAll]
  | cons x xs ih =>
      simp [ThresholdDelayDecoder.pushAll, ThresholdDelayDecoder.push_duration, ih]

/-- C2: for every finite sequence of durations pushed into a fresh
`ThresholdDelayDecoder` with threshold `T`, `close` returns one bit per push in
push order, the i-th being `duration i >= T`. -/
theorem thresholdDecoder_close_spec (T : Nat) (l : List Nat) :
    (ThresholdDelayDecoder.pushAll ⟨T, []⟩ l).close = l.map (fun d => decide (T ≤ d)) ∧
    (ThresholdDelayDecoder.pushAll ⟨T, []⟩ l).close.length = l.length ∧
    ∀ i : Nat, (ThresholdDelayDecoder.pushAll ⟨T, []⟩ l).close[i]?
      = (l[i]?).map (fun d => decide (T ≤ d)) := by
  have h : (ThresholdDelayDecoder.pushAll ⟨T, []⟩ l).close = l.map (fun d => decide (T ≤ d)) := by
    simpa [ThresholdDelayDecoder.close] using threshold_pushAll_bits T [] l
  refine ⟨h, ?_, ?_⟩
  · simp [h]
  · intro i
    simp [h]

/-- Helper: pushing a list of durations into an `AverageDelayDecoder` appends them. -/
theorem average_pushAll_durations (ds l : List Nat) :
    (AverageDelayDecoder.pushAll ⟨ds⟩ l).durations = ds ++ l := by
  induction l generalizing ds with
  | nil => simp [AverageDelayDecoder.pushAll]
  | cons x xs ih =>
      simp [AverageDelayDecoder.pushAll, AverageDelayDecoder.push_duration, ih]

/-- C3 counterexample: pushing the two durations `Duration::MAX` and
`Duration::MAX` into a fresh `AverageDelayDecoder` makes `close` panic (the
`Duration` sum overflows), embedded as `none`; no boolean sequence is returned,
refuting the claim that `close` returns one boolean per pushed duration for
every finite sequence. -/
theorem averageDecoder_close_counterexample :
    (AverageDelayDecoder.pushAll AverageDelayDecoder.new
        [durationMaxNanos, durationMaxNanos]).close = none ∧
    ∀ bs : List Bool,
      (AverageDelayDecoder.pushAll AverageDelayDecoder.new
        [durationMaxNanos, durationMaxNanos]).close ≠ some bs := by
  constructor
  · decide
  · intro bs h
    rw [show (AverageDelayDecoder.pushAll AverageDelayDecoder.new
        [durationMaxNanos, durationMaxNanos]).close = none by decide] at h
    exact Option.noConfusion h

/-- C3 amended: with 0 or 1 pushed durations `close` returns the empty
sequence; with at least 2 and fewer than `2 ^ 32` pushed durations whose sum
does not exceed `Duration::MAX`, `close` returns one boolean per pushed
duration, in push order, comparing it with the truncated mean. -/
theorem averageDecoder_close_spec (l : List Nat) :
    (l.length < 2 →
      (AverageDelayDecoder.pushAll AverageDelayDecoder.new l).close = some []) ∧
    (2 ≤ l.length → l.length < 2 ^ 32 → l.sum ≤ durationMaxNanos →
      (AverageDelayDecoder.pushAll AverageDelayDecoder.new l).close
        = some (l.map (fun duration => decide (l.sum / l.length ≤ duration)))) := by
  have hd : (AverageDelayDecoder.pushAll AverageDelayDecoder.new l).durations = l := by
    simpa using average_pushAll_durations [] l
  constructor
  · intro hlt
    simp only [AverageDelayDecoder.close, hd]
    rw [if_pos hlt]
  · intro h2 hlen hsum
    have hne : l.length % 2 ^ 32 = l.length := Nat.mod_eq_of_lt hlen
    have h0 : l.length ≠ 0 := by omega
    simp only [AverageDelayDecoder.close, hd, hne]
    rw [if_neg (by omega), if_neg (by omega), if_neg h0]

/-- C3 witness: both clauses of the amended statement at concrete sequences,
the empty sequence and `[1, 3]`. -/
theorem averageDecoder_close_spec_witness :
    (AverageDelayDecoder.pushAll AverageDelayDecoder.new ([] : List Nat)).close = some [] ∧
    (AverageDelayDecoder.pushAll AverageDelayDecoder.new [1, 3]).close
      = some ([1, 3].map (fun duration => decide ([1, 3].sum / [1, 3].length ≤ duration))) :=
  ⟨(averageDecoder_close_spec []).1 (by decide),
   (averageDecoder_close_spec [1, 3]).2 (by decide) (by decide) (by decide)⟩

/-- C1 counterexample: an open session (trace decoder, last instant 0, armed
deadline 10) with exactly the out-of-window signal `⟨10, 20⟩` buffered. `poll`
dequeues the signal, closes at once, and the returned receiver is empty: the
signal was consumed from the receiver and dropped, so the next generation
started from that receiver is `Closed` and is not seeded by the signal. The
closed bits are empty, confirming the decoder never saw the signal. This
refutes the claim that the signal is not consumed and remains buffered as the
seed of the next generation. -/
theorem late_signal_counterexample :
    DelaySessionInner.poll traceOps 0
        (.Open ([] : List Nat) ⟨[⟨10, 20⟩], true, true⟩ 0 10)
      = Except.ok (.ready [] ⟨[], true, true⟩) ∧
    DelaySession.start_with_receiver ([] : List Nat) ⟨[], true, true⟩ = .Closed := by
  exact ⟨rfl, rfl⟩

/-- C1 amended: when the next signal delivered on the inbound channel has
instant at or past the current deadline, the session closes immediately and the
decoder is closed untouched (the signal contributes no duration to any
generation), but the signal is consumed from the receiver and discarded: the
returned receiver holds only the remaining later signals, from which the next
generation seeds if any are present. -/
theorem late_signal_closes {D : Type} (ops : DecoderOps D) (now : Nat) (d : D)
    (chan : SignalChannel) (last deadline : Nat) (s : Signal) (rest : List Signal)
    (hbuf : chan.buf = s :: rest) (hlate : deadline ≤ s.instant) :
    DelaySessionInner.poll ops now (.Open d chan last deadline)
      = Except.ok (.ready (ops.close d) { chan with buf := rest }) := by
  obtain ⟨buf, sa, ra⟩ := chan
  simp only at hbuf
  subst hbuf
  simp [DelaySessionInner.poll, if_pos hlate]

/-- C1 witness: the amended statement at a concrete session with two buffered
signals, the first out of window. -/
theorem late_signal_closes_witness :
    DelaySessionInner.poll traceOps 5
        (.Open ([] : List Nat) ⟨[⟨10, 20⟩, ⟨11, 21⟩], true, true⟩ 0 10)
      = Except.ok (.ready (traceOps.close []) ⟨[⟨11, 21⟩], true, true⟩) :=
  late_signal_closes traceOps 5 [] ⟨[⟨10, 20⟩, ⟨11, 21⟩], true, true⟩ 0 10
    ⟨10, 20⟩ [⟨11, 21⟩] rfl (by decide)

/-- Helper: over a buffer whose signals are all in window, the drain loop
accepts every signal in order and exits keeping the session open, with the
folded decoder state and last instant and with the last tentative deadline. -/
theorem drain_allInWindow {D : Type} (ops : DecoderOps D) (sigs : List Signal)
    (d : D) (last nd : Nat) (h : allInWindow nd sigs = true) :
    drain ops true sigs d last nd
      = .keepOpen (applyAccepted ops d last sigs).1 []
          (applyAccepted ops d last sigs).2 (finalDeadline nd sigs) := by
  induction sigs generalizing d last nd with
  | nil => simp [drain, applyAccepted, finalDeadline]
  | cons s rest ih =>
      simp only [allInWindow, Bool.and_eq_true, decide_eq_true_eq] at h
      simp only [drain, applyAccepted, finalDeadline, if_neg (by omega : ¬ nd ≤ s.instant)]
      exact ih _ _ _ h.2

/-- C6: within one resumption of an open session, when every buffered signal is
in window (each strictly before the deadline current at its position) and the
final tentative deadline has not yet elapsed, `poll` accepts all of them in one
batch: each accepted signal pushes its difference to the previous instant into
the decoder and advances the last instant and the tentative deadline, and the
session suspends with exactly the final tentative deadline armed. -/
theorem batch_drain_spec {D : Type} (ops : DecoderOps D) (d : D) (chan : SignalChannel)
    (last deadline now : Nat) (halive : chan.senderAlive = true)
    (hwin : allInWindow deadline chan.buf = true)
    (hnow : now < finalDeadline deadline chan.buf) :
    DelaySessionInner.poll ops now (.Open d chan last deadline)
      = Except.ok (.pending (.Open (applyAccepted ops d last chan.buf).1
          { chan with buf := [] } (applyAccepted ops d last chan.buf).2
          (finalDeadline deadline chan.buf))) := by
  obtain ⟨buf, sa, ra⟩ := chan
  simp only at halive
  subst halive
  cases buf with
  | nil =>
      simp only [finalDeadline] at hnow
      simp [DelaySessionInner.poll, applyAccepted, finalDeadline,
        if_neg (by omega : ¬ deadline ≤ now)]
  | cons s rest =>
      simp only [allInWindow, Bool.and_eq_true, decide_eq_true_eq] at hwin
      simp only [finalDeadline] at hnow
      simp only [DelaySessionInner.poll, if_neg (by omega : ¬ deadline ≤ s.instant),
        drain_allInWindow ops rest _ s.instant s.timeout_instant hwin.2,
        applyAccepted, finalDeadline]
      rw [if_neg (by omega : ¬ finalDeadline s.timeout_instant rest ≤ now)]

/-- C6 witness: a concrete open session with two in-window signals buffered;
one resumption pushes durations 3 and 4, ends with last instant 7, and arms the
final tentative deadline 17. -/
theorem batch_drain_spec_witness :
    DelaySessionInner.poll traceOps 0
        (.Open ([] : List Nat) ⟨[⟨3, 13⟩, ⟨7, 17⟩], true, true⟩ 0 10)
      = Except.ok (.pending (.Open [3, 4] ⟨[], true, true⟩ 7 17)) := by
  exact batch_drain_spec traceOps [] ⟨[⟨3, 13⟩, ⟨7, 17⟩], true, true⟩ 0 10 0
    rfl (by decide) (by decide)

/-- C7 counterexample: an open session with last instant 0 and armed deadline
1000 receives the signals `⟨100, 1000⟩` then `⟨50, 900⟩`, both in window and
both accepted (the trace decoder records two pushed durations, `100` and then
`0` since instant subtraction saturates at zero). The last-accepted instant
moves from 100 to 50, so it decreased across accepted signals, refuting the
monotonicity claim for arbitrary delivered sequences. -/
theorem monotone_instants_counterexample :
    DelaySessionInner.poll traceOps 0
        (.Open ([] : List Nat) ⟨[⟨100, 1000⟩, ⟨50, 900⟩], true, true⟩ 0 1000)
      = Except.ok (.pending (.Open [100, 0] ⟨[], true, true⟩ 50 900)) ∧
    (50 : Nat) < 100 := by
  exact ⟨rfl, by decide⟩

/-- Helper: when the drain loop exits keeping the session open it has accepted
every signal of the buffer in order — the final decoder and last instant are
the in-order fold of acceptance over the whole buffer, whatever the delivered
instants are; when additionally the delivered instants were non-decreasing from
`last`, the final last instant is at least `last`. -/
theorem drain_keepOpen_fold {D : Type} (ops : DecoderOps D) (alive : Bool)
    (sigs : List Signal) (d : D) (last nd : Nat) :
    ∀ d2 rbuf last2 nd2, drain ops alive sigs d last nd = .keepOpen d2 rbuf last2 nd2 →
      (d2, last2) = applyAccepted ops d last sigs ∧
      (instantsChain last sigs = true → last ≤ last2) := by
  induction sigs generalizing d last nd with
  | nil =>
      intro d2 rbuf last2 nd2 h
      by_cases ha : alive = true
      · subst ha
        simp only [drain, if_pos rfl] at h
        injection h with h1 h2 h3 h4
        subst h1; subst h3
        exact ⟨rfl, fun _ => le_refl _⟩
      · simp only [Bool.not_eq_true] at ha
        subst ha
        simp [drain] at h
  | cons s rest ih =>
      intro d2 rbuf last2 nd2 h
      simp only [drain] at h
      by_cases hs : nd ≤ s.instant
      · rw [if_pos hs] at h
        exact absurd h (by simp)
      · rw [if_neg hs] at h
        have hrec := ih (ops.push_duration d (s.instant - last)) s.instant s.timeout_instant
          d2 rbuf last2 nd2 h
        refine ⟨by simpa [applyAccepted] using hrec.1, ?_⟩
        intro hchain
        simp only [instantsChain, Bool.and_eq_true, decide_eq_true_eq] at hchain
        exact le_trans hchain.1 (hrec.2 hchain.2)

/-- C7 amended: within one session signals are applied in receipt order — any
poll that leaves the session open has folded acceptance over exactly a prefix
of the delivered buffer, front to back, with no hypothesis on the delivered
instants — and provided the delivered instants are non-decreasing starting
from the current last-accepted instant, the last-accepted instant never
decreases. -/
theorem monotone_instants_spec {D : Type} (ops : DecoderOps D) (d : D)
    (chan : SignalChannel) (last deadline now : Nat) :
    ∀ d2 ch2 last2 nd2,
      DelaySessionInner.poll ops now (.Open d chan last deadline)
        = Except.ok (.pending (.Open d2 ch2 last2 nd2)) →
      (∃ n, (d2, last2) = applyAccepted ops d last (chan.buf.take n)) ∧
      (instantsChain last chan.buf = true → last ≤ last2) := by
  obtain ⟨buf, sa, ra⟩ := chan
  intro d2 ch2 last2 nd2 h
  cases buf with
  | nil =>
      simp only [DelaySessionInner.poll] at h
      by_cases hsa : sa = true
      · subst hsa
        rw [if_pos rfl] at h
        by_cases hd : deadline ≤ now
        · rw [if_pos hd] at h
          exact absurd h (by simp)
        · rw [if_neg hd] at h
          simp only [Except.ok.injEq, SessionPoll.pending.injEq,
            DelaySessionInner.Open.injEq] at h
          refine ⟨⟨0, ?_⟩, fun _ => le_of_eq h.2.2.1⟩
          simp [applyAccepted, h.1, h.2.2.1]
      · simp only [Bool.not_eq_true] at hsa
        subst hsa
        rw [if_neg (by simp)] at h
        exact absurd h (by simp)
  | cons s rest =>
      simp only [DelaySessionInner.poll] at h
      by_cases hs : deadline ≤ s.instant
      · rw [if_pos hs] at h
        exact absurd h (by simp)
      · rw [if_neg hs] at h
        rcases hdr : drain ops sa rest (ops.push_duration d (s.instant - last))
            s.instant s.timeout_instant with ⟨bits, rbuf⟩ | ⟨d3, rbuf, last3, nd3⟩
        · rw [hdr] at h
          exact absurd h (by simp)
        · rw [hdr] at h
          simp only at h
          by_cases hn : nd3 ≤ now
          · rw [if_pos hn] at h
            exact absurd h (by simp)
          · rw [if_neg hn] at h
            simp only [Except.ok.injEq, SessionPoll.pending.injEq,
              DelaySessionInner.Open.injEq] at h
            obtain ⟨hd2, _, hl2, _⟩ := h
            have hfold := drain_keepOpen_fold ops sa rest
              (ops.push_duration d (s.instant - last)) s.instant s.timeout_instant
              d3 rbuf last3 nd3 hdr
            subst hd2; subst hl2
            constructor
            · refine ⟨(s :: rest).length, ?_⟩
              rw [List.take_length]
              simpa [applyAccepted] using hfold.1
            · intro hchain
              simp only [instantsChain, Bool.and_eq_true, decide_eq_true_eq] at hchain
              exact le_trans hchain.1 (hfold.2 hchain.2)

/-- C7 witness: the amended statement applied at a concrete session accepting
one in-window signal, discharging the poll equation and, for the monotonicity
conjunct, the non-decreasing-instants side condition. -/
theorem monotone_instants_spec_witness :
    (∃ n, (([5], 5) : List Nat × Nat)
        = applyAccepted traceOps [] 0 (List.take n [⟨5, 30⟩])) ∧
    (0 : Nat) ≤ 5 :=
  ⟨(monotone_instants_spec traceOps [] ⟨[⟨5, 30⟩], true, true⟩ 0 10 0
      [5] ⟨[], true, true⟩ 5 30 rfl).1,
   (monotone_instants_spec traceOps [] ⟨[⟨5, 30⟩], true, true⟩ 0 10 0
      [5] ⟨[], true, true⟩ 5 30 rfl).2 (by decide)⟩

/-- C8: polling a session that has already reached `Closed` is the panic at
src/session.rs line 174, embedded as `Except.error ()`: it never silently
no-ops or returns a value. Polling a session in the `Open` state always
produces an ordinary `Except.ok` outcome and never reaches that abort. -/
theorem poll_closed_aborts {D : Type} (ops : DecoderOps D) (now : Nat) :
    DelaySessionInner.poll ops now (.Closed : DelaySessionInner D) = Except.error () ∧
    ∀ (d : D) (chan : SignalChannel) (last deadline : Nat),
      ∃ r, DelaySessionInner.poll ops now (.Open d chan last deadline) = Except.ok r :=
  ⟨rfl, fun _ _ _ _ => ⟨_, rfl⟩⟩

/-- C4: `start_with_receiver` with a fresh decoder and the returned receiver
yields an open session exactly when a signal is already buffered; a buffered
signal is consumed as the seed (its instant becomes the start point, its
`timeout_instant` the initial deadline, and the decoder state stays exactly the
fresh decoder, never fed the seed as a duration); with no buffered signal the
session is `Closed`, and in that case the driver iteration removes the key from
the map (the weak reference still upgrading) and terminates the task. -/
theorem start_with_receiver_rollover {K D : Type} [DecidableEq K] (fresh : D)
    (chan : SignalChannel) (k : K) (bits : List Bool) (map : List (K × SignalChannel))
    (resultBuf : List (K × List Bool)) (resultAlive : Bool) :
    ((DelaySession.start_with_receiver fresh chan).is_open = true ↔ chan.buf ≠ []) ∧
    (∀ s rest, chan.buf = s :: rest →
      DelaySession.start_with_receiver fresh chan
        = .Open fresh { chan with buf := rest } s.instant s.timeout_instant) ∧
    (chan.buf = [] →
      driverLoopStep k bits chan fresh map resultBuf resultAlive true
        = (removeKey map k, publish resultAlive resultBuf (k, bits), none)) := by
  obtain ⟨buf, sa, ra⟩ := chan
  cases buf with
  | nil =>
      refine ⟨by simp [DelaySession.start_with_receiver, DelaySessionInner.is_open], ?_, ?_⟩
      · intro s rest h
        exact absurd h (by simp)
      · intro _
        simp [driverLoopStep, DelaySession.start_with_receiver, DelaySessionInner.is_open]
  | cons s rest =>
      refine ⟨by simp [DelaySession.start_with_receiver, DelaySessionInner.is_open], ?_, ?_⟩
      · intro s2 rest2 h
        simp only [List.cons.injEq] at h
        simp [DelaySession.start_with_receiver, h.1, h.2]
      · intro h
        exact absurd h (by simp)

/-- C4 witness: the driver iteration at a concrete key whose returned receiver
holds no buffered signal removes the key and terminates. -/
theorem start_with_receiver_rollover_witness :
    driverLoopStep (0 : Nat) [true] ⟨[], true, true⟩ ([] : List Nat)
        [(0, ⟨[], true, true⟩)] [] true true
      = (removeKey [((0 : Nat), (⟨[], true, true⟩ : SignalChannel))] 0,
          publish true [] (0, [true]), none) :=
  (start_with_receiver_rollover ([] : List Nat) ⟨[], true, true⟩ 0 [true]
    [(0, ⟨[], true, true⟩)] [] true).2.2 rfl

/-- C5: `push_signal` fails exactly when the key has an existing map entry
whose channel has lost its receiver half; with no map entry it creates a fresh
channel and a fresh open session with `last_signal_instant = instant` and
deadline `instant + timeout_duration`, records the sender under the key, and
succeeds. -/
theorem push_signal_spec {K D : Type} [DecidableEq K] (timeout_duration : Nat)
    (map : List (K × SignalChannel)) (k : K) (instant : Nat) (fresh : D) :
    (DelaySessionStore.push_signal timeout_duration map k instant fresh = Except.error () ↔
      ∃ c, lookupSender map k = some c ∧ c.receiverAlive = false) ∧
    (lookupSender map k = none →
      DelaySessionStore.push_signal timeout_duration map k instant fresh
        = Except.ok (map ++ [(k, ⟨[], true, true⟩)],
            some (.Open fresh ⟨[], true, true⟩ instant (instant + timeout_duration)))) := by
  constructor
  · cases hl : lookupSender map k with
    | none =>
        simp only [DelaySessionStore.push_signal, hl]
        constructor
        · intro h
          exact absurd h (by simp)
        · rintro ⟨c, hc, _⟩
          exact Option.noConfusion hc
    | some c =>
        simp only [DelaySessionStore.push_signal, hl]
        by_cases hr : c.receiverAlive = true
        · rw [if_pos hr]
          constructor
          · intro h
            exact absurd h (by simp)
          · rintro ⟨c2, hc2, hdead⟩
            rw [Option.some.injEq] at hc2
            subst hc2
            rw [hr] at hdead
            exact Bool.noConfusion hdead
        · simp only [Bool.not_eq_true] at hr
          rw [if_neg (by simp [hr])]
          exact ⟨fun _ => ⟨c, rfl, hr⟩, fun _ => rfl⟩
  · intro hl
    simp [DelaySessionStore.push_signal, hl]

/-- C5 witness: on an empty map, `push_signal` with timeout 7 at instant 5
creates the entry and an open session with deadline 12. -/
theorem push_signal_spec_witness :
    DelaySessionStore.push_signal 7 ([] : List (Nat × SignalChannel)) 0 5 ([] : List Nat)
      = Except.ok ([(0, ⟨[], true, true⟩)],
          some (.Open [] ⟨[], true, true⟩ 5 12)) :=
  (push_signal_spec 7 ([] : List (Nat × SignalChannel)) 0 5 ([] : List Nat)).2 rfl

/-- C10: the driver publishes a completed pair by a send whose error is
ignored; the embedding `driverLoopStep` is a total function (no failure, no
panic). With the result stream receiver gone the completed pair is silently
discarded, and map cleanup and generation rollover are identical to the live
case; with it alive the pair is appended. -/
theorem driver_publish_spec {K D : Type} [DecidableEq K] (k : K) (bits : List Bool)
    (receiver : SignalChannel) (fresh : D) (map : List (K × SignalChannel))
    (resultBuf : List (K × List Bool)) (mapAlive : Bool) :
    (driverLoopStep k bits receiver fresh map resultBuf false mapAlive).1
        = (driverLoopStep k bits receiver fresh map resultBuf true mapAlive).1 ∧
    (driverLoopStep k bits receiver fresh map resultBuf false mapAlive).2.2
        = (driverLoopStep k bits receiver fresh map resultBuf true mapAlive).2.2 ∧
    (driverLoopStep k bits receiver fresh map resultBuf false mapAlive).2.1 = resultBuf ∧
    (driverLoopStep k bits receiver fresh map resultBuf true mapAlive).2.1
        = resultBuf ++ [(k, bits)] := by
  cases h : (DelaySession.start_with_receiver fresh receiver).is_open <;>
    simp [driverLoopStep, publish, h]

/-- C9 counterexample: in the occupied-entry path of `push_signal` the awaited
send is not performed outside the lock: the event order forced by the borrow of
the `MutexGuard` temporary places `sendAwait` strictly between `lockAcquire`
and `lockRelease`. -/
theorem send_outside_lock_counterexample :
    sendOutsideLock pushSignalOccupiedEvents = false := by
  decide

/-- C9 amended: in the occupied-entry path the awaited send into the existing
session's inbound channel is performed while the map's mutual-exclusion lock is
held — the guard is a temporary of the `match` scrutinee, borrowed by the entry
and the sender reference, and is released only when the whole `match` ends,
after the send completes — so that critical section suspends across the send. -/
theorem send_inside_lock_spec :
    sendInsideLock pushSignalOccupiedEvents = true := by
  decide
